import Mathlib

/-!
Verification of the out-of-stock persistence engine of
`src/daily_store_product.py` (function `calc_full_oos_streaks`) together
with the ranked top-N views (`main` in `src/daily_store_product.py` and
`src/viz_top10_store_problem.py`).

The pandas pipeline is embedded as pure functions over lists of rows:

* `df["is_full_oos"] = df["oos_rate"].fillna(0) >= rate_threshold`
  becomes `isFullOosFlag`;
* `df.sort_values(["store_name", "e_code", "dt"])` — a stable
  multi-column sort (pandas uses a stable lexsort when several columns
  are given) — becomes `sortDaily`, an insertion sort (stable) by the
  lexicographic key `(store_name, e_code, dt)`;
* the per-group `run_id` column (`(s != s.shift(1)).cumsum()` inside
  `groupby`) groups each group's date-ordered rows into maximal stretches
  of constant `is_full_oos`; this chunking is `chunkEq`;
* `runs = df.groupby([store, e_code, run_id]).agg(first, min, max, size)`
  becomes `runsOfGroup` applied to each group (on the sorted frame the
  groups, and the runs inside one group, are contiguous and appear in
  sorted key order, which is exactly the order pandas' sorting groupby
  emits);
* the summary per group — `full_runs.sort_values([store, e_code, days],
  ascending=[True, True, False]).groupby([store, e_code]).head(1)`
  followed by the left merge of the per-group count of `is_full_oos`
  days — becomes `summarizeGroup`: since the sort keys start with the
  group key and the sort is stable, the global sort followed by
  `head(1)` per group picks, inside each group, the head of the stable
  days-descending sort of that group's flag-true runs;
* the TOP-N views (`summary.sort_values(["max_full_oos_streak_days",
  "total_full_oos_days"], ascending=False).head(N)`) become `topN`.

A small heap model (`PyVal`, `calcHeap`) mirrors the reference/mutation
structure of the Python function (`df.copy()`, in-place column
assignments, fresh frames from `sort_values`/`groupby`/`merge`) in order
to state the frame condition: the caller's objects are never mutated.
-/

namespace OOS

/-- Python strings (store names, product codes), modelled as lists of
character codes; the order below is the lexicographic order on the code
sequences, which is exactly how Python (and hence pandas) compares
strings. -/
abbrev Str : Type := List ℕ

/-- One row of the input `DailyAggregate` table, as produced by
`load_daily_store_product`: date, group key `(store_name, e_code)`,
counts and the (nullable) out-of-stock rate. -/
structure RawRow where
  dt : ℕ
  store_name : Str
  e_code : Str
  oos_cnt : ℕ
  total_cnt : ℕ
  oos_rate : Option ℚ
  deriving DecidableEq, Repr, Inhabited

/-- The classifier, line 72 of `src/daily_store_product.py`:
`df["is_full_oos"] = df["oos_rate"].fillna(0) >= rate_threshold`. -/
def isFullOosFlag (rate : Option ℚ) (rate_threshold : ℚ) : Bool :=
  decide (rate_threshold ≤ rate.getD 0)

/-- A row of the flagged daily table: the input row plus the derived
`is_full_oos` and `run_id` columns. -/
structure FlaggedRow where
  row : RawRow
  is_full_oos : Bool
  run_id : ℕ
  deriving DecidableEq, Repr, Inhabited

/-- Attach the `is_full_oos` column (the `run_id` column is assigned
later, after sorting, as in the source; it starts as a placeholder). -/
def addFlag (rate_threshold : ℚ) (r : RawRow) : FlaggedRow :=
  ⟨r, isFullOosFlag r.oos_rate rate_threshold, 0⟩

/-- The sort key of `df.sort_values(["store_name", "e_code", "dt"])`,
lexicographic. -/
def rowKey (a : FlaggedRow) : Lex (Str × Lex (Str × ℕ)) :=
  toLex (a.row.store_name, toLex (a.row.e_code, a.row.dt))

/-- Comparison used by the stable sort of the daily table. -/
def rowLe (a b : FlaggedRow) : Prop := rowKey a ≤ rowKey b

/-- Strict version of `rowLe`. -/
def rowLt (a b : FlaggedRow) : Prop := rowKey a < rowKey b

instance : DecidableRel rowLe := fun a b =>
  decidable_of_iff (rowKey a ≤ rowKey b) Iff.rfl

instance : IsTotal FlaggedRow rowLe :=
  ⟨fun a b => le_total (rowKey a) (rowKey b)⟩

instance : IsTrans FlaggedRow rowLe :=
  ⟨fun _ _ _ h₁ h₂ => le_trans h₁ h₂⟩

instance : IsAntisymm FlaggedRow rowLt :=
  ⟨fun _ _ h h' => absurd (lt_trans h h') (lt_irrefl _)⟩

/-- Line 75: `df = df.sort_values(["store_name", "e_code", "dt"])`.
pandas' multi-column sort is a stable lexsort; insertion sort is stable. -/
def sortDaily (l : List FlaggedRow) : List FlaggedRow :=
  List.insertionSort rowLe l

/-- Split off the maximal leading chunk of a list in which every element
is related to its predecessor by `f`, starting from `a`; also return the
chunking of the rest. -/
def chunkBy1 (f : α → α → Bool) (a : α) : List α → List α × List (List α)
  | [] => ([a], [])
  | b :: l =>
    let p := chunkBy1 f b l
    if f a b then (a :: p.1, p.2) else ([a], p.1 :: p.2)

/-- Split a list into maximal chunks of adjacently `f`-related elements.
With `f` an equality test this is exactly what a cumulative sum over
`s != s.shift(1)` followed by a groupby on that sum does in pandas. -/
def chunkBy (f : α → α → Bool) : List α → List (List α)
  | [] => []
  | a :: l => (chunkBy1 f a l).1 :: (chunkBy1 f a l).2

/-- Chunk a list into maximal stretches on which the projection `p` is
constant. -/
def chunkEq [DecidableEq β] (p : α → β) (l : List α) : List (List α) :=
  chunkBy (fun a b => decide (p a = p b)) l

/-- The group key `(store_name, e_code)` of a flagged row. -/
def groupOf (r : FlaggedRow) : Str × Str :=
  (r.row.store_name, r.row.e_code)

/-- The `is_full_oos` column of a flagged row, as a projection. -/
def flagOf (r : FlaggedRow) : Bool := r.is_full_oos

/-- Lines 81–85: the `run_id` column. Within one group, row number
`i` of the `k`-th maximal constant-flag stretch receives `run_id = k+1`
(the cumulative sum of `s != s.shift(1)` starts at 1). -/
def assignRunIds (g : List FlaggedRow) : List FlaggedRow :=
  ((chunkEq flagOf g).enum.map
    (fun p => p.2.map (fun r => { r with run_id := p.1 + 1 }))).flatten

/-- One row of the run table (lines 88–96): group key, `run_id`, the
common flag, the date bounds and the record count of the run. -/
structure Run where
  store_name : Str
  e_code : Str
  run_id : ℕ
  is_full_oos : Bool
  start_dt : ℕ
  end_dt : ℕ
  days : ℕ
  deriving DecidableEq, Repr, Inhabited

/-- pandas `agg start_dt=("dt", "min")` over one run's rows. -/
def minDt : List FlaggedRow → ℕ
  | [] => 0
  | a :: l => (l.map (fun r => r.row.dt)).foldl Nat.min a.row.dt

/-- pandas `agg end_dt=("dt", "max")` over one run's rows. -/
def maxDt : List FlaggedRow → ℕ
  | [] => 0
  | a :: l => (l.map (fun r => r.row.dt)).foldl Nat.max a.row.dt

/-- Aggregate one maximal constant-flag chunk (the `k`-th of its group)
into a `Run` row: `first` for the flag and the key columns, `min`/`max`
for the date bounds, `size` for `days`. -/
def mkRun (idx : ℕ) (c : List FlaggedRow) : Run :=
  { store_name := c.headI.row.store_name
    e_code := c.headI.row.e_code
    run_id := idx + 1
    is_full_oos := c.headI.is_full_oos
    start_dt := minDt c
    end_dt := maxDt c
    days := c.length }

/-- The run table restricted to one group (the group's rows are given in
ascending date order, as they appear in the sorted frame). -/
def runsOfGroup (g : List FlaggedRow) : List Run :=
  (chunkEq flagOf g).enum.map (fun p => mkRun p.1 p.2)

/-- One row of the summary table (lines 102–123). -/
structure SummaryRow where
  store_name : Str
  e_code : Str
  max_full_oos_streak_days : ℕ
  max_streak_start_dt : ℕ
  max_streak_end_dt : ℕ
  total_full_oos_days : ℕ
  deriving DecidableEq, Repr, Inhabited

/-- Comparison used on a group's flag-true runs by
`full_runs.sort_values(["store_name", "e_code", "days"],
ascending=[True, True, False])`: within one group this sorts by `days`
descending (stably). -/
def daysGe (a b : Run) : Prop := b.days ≤ a.days

instance : DecidableRel daysGe := fun a b => Nat.decLe b.days a.days

instance : IsTotal Run daysGe := ⟨fun a b => le_total b.days a.days⟩

instance : IsTrans Run daysGe := ⟨fun _ _ _ h₁ h₂ => le_trans h₂ h₁⟩

/-- `groupby([store, e_code]).head(1)` after the stable days-descending
sort: the head of the stable sort of the group's flag-true runs. -/
def pickMaxRun (rs : List Run) : Option Run :=
  (List.insertionSort daysGe rs).head?

/-- Lines 98–123 restricted to one group: keep the flag-true runs; if
there are none the group contributes no summary row (it is absent from
`full_runs`, hence from `summary`); otherwise report the picked max run
and, from the left merge with `total_full_days`, the count of the
group's `is_full_oos` rows. -/
def summarizeGroup (g : List FlaggedRow) : Option SummaryRow :=
  match pickMaxRun ((runsOfGroup g).filter (fun r => r.is_full_oos)) with
  | none => none
  | some r =>
    some { store_name := r.store_name
           e_code := r.e_code
           max_full_oos_streak_days := r.days
           max_streak_start_dt := r.start_dt
           max_streak_end_dt := r.end_dt
           total_full_oos_days :=
             (g.filter (fun x => x.is_full_oos)).length }

/-- The whole of `calc_full_oos_streaks` (lines 68–125): returns the
flagged daily table (sorted, with `run_id`), the run table and the
summary table. On the sorted frame the `(store_name, e_code)` groups are
contiguous and in ascending key order, which is the order pandas'
sorting groupby traverses them. -/
def calc_full_oos_streaks (df : List RawRow) (rate_threshold : ℚ) :
    List FlaggedRow × List Run × List SummaryRow :=
  let sorted := sortDaily (df.map (addFlag rate_threshold))
  let groups := chunkEq groupOf sorted
  ((groups.map assignRunIds).flatten,
   (groups.map runsOfGroup).flatten,
   groups.filterMap summarizeGroup)

/-- Comparison of the TOP-N sort:
`sort_values(["max_full_oos_streak_days", "total_full_oos_days"],
ascending=False)` — stable, both metrics descending. -/
def metricGe (a b : SummaryRow) : Prop :=
  b.max_full_oos_streak_days < a.max_full_oos_streak_days ∨
    (a.max_full_oos_streak_days = b.max_full_oos_streak_days ∧
      b.total_full_oos_days ≤ a.total_full_oos_days)

instance : DecidableRel metricGe := fun a b =>
  decidable_of_iff
    (b.max_full_oos_streak_days < a.max_full_oos_streak_days ∨
      (a.max_full_oos_streak_days = b.max_full_oos_streak_days ∧
        b.total_full_oos_days ≤ a.total_full_oos_days)) Iff.rfl

instance : IsTotal SummaryRow metricGe := by
  constructor
  intro a b
  unfold metricGe
  rcases Nat.lt_trichotomy a.max_full_oos_streak_days
      b.max_full_oos_streak_days with h | h | h
  · right; left; exact h
  · rcases le_total b.total_full_oos_days a.total_full_oos_days with h' | h'
    · left; right; exact ⟨h, h'⟩
    · right; right; exact ⟨h.symm, h'⟩
  · left; left; exact h

instance : IsTrans SummaryRow metricGe := by
  constructor
  intro a b c hab hbc
  unfold metricGe at *
  rcases hab with h | ⟨he, ht⟩ <;> rcases hbc with h' | ⟨he', ht'⟩
  · exact Or.inl (lt_trans h' h)
  · exact Or.inl (he' ▸ h)
  · exact Or.inl (he ▸ h')
  · exact Or.inr ⟨he.trans he', le_trans ht' ht⟩

/-- The ranked TOP-N view (`main` line 155 of `daily_store_product.py`
with N = 20; `main` lines 147–151 of `viz_top10_store_problem.py` with
N = 10): stable sort by both metrics descending, then `head(N)`. -/
def topN (n : ℕ) (s : List SummaryRow) : List SummaryRow :=
  (List.insertionSort metricGe s).take n

/-- A Python heap value, for the frame/mutation model: a raw daily
table, a flagged daily table, a run table or a summary table. -/
inductive PyVal where
  | raw : List RawRow → PyVal
  | tbl : List FlaggedRow → PyVal
  | runsT : List Run → PyVal
  | sumT : List SummaryRow → PyVal
  deriving DecidableEq, Repr

instance : Inhabited PyVal := ⟨PyVal.raw []⟩

/-- Read a raw daily table out of a heap value. -/
def getRaw : PyVal → List RawRow
  | PyVal.raw t => t
  | _ => []

/-- The body of `calc_full_oos_streaks` over an explicit heap of Python
objects. The caller's frame is the cell `dfRef`; `df = df.copy()`
allocates a fresh cell, the column assignments (`is_full_oos`, `run_id`)
mutate only that fresh cell and the fresh cell created by `sort_values`
(which returns a new frame); `groupby(...).agg(...)` and the
merge-based summary allocate fresh cells. Returns the heap after the
call and the references of the three results. -/
def calcHeap (heap : List PyVal) (dfRef : ℕ) (rate_threshold : ℚ) :
    List PyVal × ℕ × ℕ × ℕ :=
  let df0 : List RawRow := getRaw (heap.getD dfRef default)
  -- df = df.copy()
  let r1 := heap.length
  let h1 := heap ++ [PyVal.raw df0]
  -- df["is_full_oos"] = ...  (in place, on the copy)
  let flagged := df0.map (addFlag rate_threshold)
  let h2 := h1.set r1 (PyVal.tbl flagged)
  -- df = df.sort_values(...)  (a fresh frame; the name is rebound)
  let sorted := sortDaily flagged
  let r2 := h2.length
  let h3 := h2 ++ [PyVal.tbl sorted]
  -- df["run_id"] = ...  (in place, on the sorted frame)
  let groups := chunkEq groupOf sorted
  let h4 := h3.set r2 (PyVal.tbl (groups.map assignRunIds).flatten)
  -- runs = df.groupby(...).agg(...)  (a fresh frame)
  let r3 := h4.length
  let h5 := h4 ++ [PyVal.runsT (groups.map runsOfGroup).flatten]
  -- summary = ... .merge(...)  (fresh frames throughout)
  let r4 := h5.length
  let h6 := h5 ++ [PyVal.sumT (groups.filterMap summarizeGroup)]
  (h6, r2, r3, r4)

/-! Concrete rational constants and inputs used in the witnesses and
counterexamples (characters are code points: "S" = 83, "P" = 80 and so
on; rationals are written in lowest terms to keep them kernel-reducible). -/

/-- The default threshold 0.999. -/
def thr : ℚ := ⟨999, 1000, by decide, by decide⟩

/-- The rate 0.9991 (just above the threshold). -/
def r9991 : ℚ := ⟨9991, 10000, by decide, by decide⟩

/-- The rate 0.9989 (just below the threshold). -/
def r9989 : ℚ := ⟨9989, 10000, by decide, by decide⟩

/-- Convenience constructor for a daily aggregate row. -/
def mkRow (d : ℕ) (s p : Str) (rate : Option ℚ) : RawRow :=
  ⟨d, s, p, 0, 1, rate⟩

/-- Dates [1, 2, 4, 5] (day 3 absent), all fully stocked out, one group. -/
def gapInput : List RawRow :=
  [mkRow 1 [83] [80] (some 1), mkRow 2 [83] [80] (some 1),
   mkRow 4 [83] [80] (some 1), mkRow 5 [83] [80] (some 1)]

/-- Six consecutive dates with flags [T, T, F, T, T, T], one group. -/
def ex7Input : List RawRow :=
  [mkRow 1 [83] [80] (some 1), mkRow 2 [83] [80] (some 1),
   mkRow 3 [83] [80] (some 0), mkRow 4 [83] [80] (some 1),
   mkRow 5 [83] [80] (some 1), mkRow 6 [83] [80] (some 1)]

/-- A duplicated date (dt = 1 twice) within one group: an ordering
violation in the sense of the specification. -/
def dupInput : List RawRow :=
  [mkRow 1 [83] [80] (some 1), mkRow 1 [83] [80] (some 1)]

/-- One group with a single day at rate 1/2: a record, but no flag-true
run. -/
def allFalseInput : List RawRow :=
  [mkRow 1 [83] [80] (some ⟨1, 2, by decide, by decide⟩)]

/-- Two groups, rows deliberately out of order. -/
def twoGroups : List RawRow :=
  [mkRow 2 [84] [81] (some 1), mkRow 1 [83] [80] (some 1),
   mkRow 1 [84] [81] (some 1), mkRow 2 [83] [80] (some 0)]

/-- A permutation of `twoGroups`. -/
def twoGroupsPerm : List RawRow :=
  [mkRow 2 [83] [80] (some 0), mkRow 1 [84] [81] (some 1),
   mkRow 1 [83] [80] (some 1), mkRow 2 [84] [81] (some 1)]

/-- A length-3 flag-true run starting on day 1. -/
def runA : Run := ⟨[83], [80], 1, true, 1, 3, 3⟩

/-- A length-3 flag-true run starting on day 5. -/
def runB : Run := ⟨[83], [80], 3, true, 5, 7, 3⟩

/-- A flagged row used in concrete groups: one day of the (S, P) group
with the given flag. -/
def fr (d : ℕ) (b : Bool) : FlaggedRow :=
  ⟨⟨d, [83], [80], 0, 1, some (if b then 1 else 0)⟩, b, 0⟩

/-- Order guaranteed on the output of a stable sort by `r` of a list
originally ordered by `q`. -/
def stableRel (r q : α → α → Prop) (x y : α) : Prop :=
  (r x y ∧ ¬ r y x) ∨ (r x y ∧ r y x ∧ q x y)

/-- Strict lexicographic order on the group keys of two flagged rows. -/
def groupLt (x y : FlaggedRow) : Prop :=
  toLex (groupOf x) < toLex (groupOf y)

/-- Lexicographic group key of a summary row. -/
def summaryKey (s : SummaryRow) : Lex (Str × Str) :=
  toLex (s.store_name, s.e_code)

/-- The `(store_name, e_code, dt)` key of an input row. -/
def rawKey (r : RawRow) : Str × Str × ℕ := (r.store_name, r.e_code, r.dt)

/-- The order the ranked top-N view actually exhibits: primary
`max_full_oos_streak_days` descending, secondary `total_full_oos_days`
descending, and on full metric ties ascending (lexical) group key. -/
def topOrder (s s' : SummaryRow) : Prop :=
  s'.max_full_oos_streak_days < s.max_full_oos_streak_days ∨
    (s.max_full_oos_streak_days = s'.max_full_oos_streak_days ∧
      (s'.total_full_oos_days < s.total_full_oos_days ∨
        (s.total_full_oos_days = s'.total_full_oos_days ∧
          summaryKey s < summaryKey s')))


/-! Basic facts about the chunking function: unfolding equations, the
chunks concatenate back to the input, chunks are nonempty, the chunked
projection is constant on each chunk and changes between adjacent
chunks. -/

theorem chunkBy1_cons_of_true {f : α → α → Bool} {a b : α} {l : List α}
    (h : f a b = true) :
    chunkBy1 f a (b :: l) =
      (a :: (chunkBy1 f b l).1, (chunkBy1 f b l).2) := by
  simp [chunkBy1, h]

theorem chunkBy1_cons_of_false {f : α → α → Bool} {a b : α} {l : List α}
    (h : f a b = false) :
    chunkBy1 f a (b :: l) =
      ([a], (chunkBy1 f b l).1 :: (chunkBy1 f b l).2) := by
  simp [chunkBy1, h]

theorem chunkBy1_fst_cons (f : α → α → Bool) :
    ∀ (l : List α) (a : α), ∃ t, (chunkBy1 f a l).1 = a :: t
  | [], _ => ⟨[], rfl⟩
  | b :: l, a => by
    rcases Or.symm (Bool.eq_false_or_eq_true (f a b)) with h | h
    · exact ⟨[], by rw [chunkBy1_cons_of_false h]⟩
    · exact ⟨(chunkBy1 f b l).1, by rw [chunkBy1_cons_of_true h]⟩

theorem chunkBy1_append (f : α → α → Bool) :
    ∀ (l : List α) (a : α),
      (chunkBy1 f a l).1 ++ (chunkBy1 f a l).2.flatten = a :: l
  | [], _ => rfl
  | b :: l, a => by
    have ih := chunkBy1_append f l b
    rcases Or.symm (Bool.eq_false_or_eq_true (f a b)) with h | h
    · rw [chunkBy1_cons_of_false h]
      simpa using ih
    · rw [chunkBy1_cons_of_true h]
      simpa using ih

theorem chunkBy_flatten (f : α → α → Bool) :
    ∀ l : List α, (chunkBy f l).flatten = l
  | [] => rfl
  | a :: l => by
    simpa [chunkBy] using chunkBy1_append f l a

theorem chunkBy1_snd_ne_nil (f : α → α → Bool) :
    ∀ (l : List α) (a : α), ∀ c ∈ (chunkBy1 f a l).2, c ≠ []
  | [], _ => by simp [chunkBy1]
  | b :: l, a => by
    intro c hc
    rcases Or.symm (Bool.eq_false_or_eq_true (f a b)) with h | h
    · rw [chunkBy1_cons_of_false h] at hc
      rcases List.mem_cons.1 hc with rfl | hc
      · obtain ⟨t, ht⟩ := chunkBy1_fst_cons f l b
        simp [ht]
      · exact chunkBy1_snd_ne_nil f l b c hc
    · rw [chunkBy1_cons_of_true h] at hc
      exact chunkBy1_snd_ne_nil f l b c hc

theorem chunkBy_ne_nil (f : α → α → Bool) (l : List α) :
    ∀ c ∈ chunkBy f l, c ≠ [] := by
  cases l with
  | nil => simp [chunkBy]
  | cons a l =>
    intro c hc
    rcases List.mem_cons.1 hc with rfl | hc
    · obtain ⟨t, ht⟩ := chunkBy1_fst_cons f l a
      simp [ht]
    · exact chunkBy1_snd_ne_nil f l a c hc

theorem mem_of_mem_chunkBy {f : α → α → Bool} {l : List α}
    {c : List α} {x : α} (hc : c ∈ chunkBy f l) (hx : x ∈ c) : x ∈ l := by
  have h := List.sublist_flatten_of_mem hc
  rw [chunkBy_flatten f l] at h
  exact h.subset hx

theorem headI_mem_of_ne_nil [Inhabited α] :
    ∀ {c : List α}, c ≠ [] → c.headI ∈ c
  | [], h => absurd rfl h
  | _ :: _, _ => List.mem_cons_self _ _

theorem headI_map [Inhabited α] [Inhabited β] (φ : α → β)
    (hd : φ default = default) : ∀ c : List α, (c.map φ).headI = φ c.headI
  | [] => hd.symm
  | _ :: _ => rfl

theorem chunkEq1_const [DecidableEq β] (p : α → β) :
    ∀ (l : List α) (a : α),
      (∀ x ∈ (chunkBy1 (fun u v => decide (p u = p v)) a l).1, p x = p a) ∧
        (∀ c ∈ (chunkBy1 (fun u v => decide (p u = p v)) a l).2,
          ∀ x ∈ c, ∀ y ∈ c, p x = p y)
  | [], a => by simp [chunkBy1]
  | b :: l, a => by
    have ih := chunkEq1_const p l b
    rcases Or.symm (Bool.eq_false_or_eq_true (decide (p a = p b))) with h | h
    · rw [chunkBy1_cons_of_false h]
      refine ⟨by simp, ?_⟩
      intro c hc x hx y hy
      rcases List.mem_cons.1 hc with rfl | hc
      · exact (ih.1 x hx).trans (ih.1 y hy).symm
      · exact ih.2 c hc x hx y hy
    · have hab : p a = p b := of_decide_eq_true h
      rw [chunkBy1_cons_of_true h]
      refine ⟨?_, ih.2⟩
      intro x hx
      rcases List.mem_cons.1 hx with rfl | hx
      · rfl
      · exact (ih.1 x hx).trans hab.symm

theorem chunkEq_const [DecidableEq β] [Inhabited α] (p : α → β)
    (l : List α) :
    ∀ c ∈ chunkEq p l, ∀ x ∈ c, p x = p c.headI := by
  cases l with
  | nil => simp [chunkEq, chunkBy]
  | cons a l =>
    intro c hc x hx
    have hne := chunkBy_ne_nil _ _ c hc
    have hhd : c.headI ∈ c := headI_mem_of_ne_nil hne
    rcases List.mem_cons.1 hc with rfl | hc
    · obtain ⟨t, ht⟩ := chunkBy1_fst_cons (fun u v => decide (p u = p v)) l a
      rw [ht] at hx ⊢
      have h1 := (chunkEq1_const p l a).1
      rw [ht] at h1
      exact (h1 x hx).trans (h1 _ (List.mem_cons_self a t)).symm
    · exact (chunkEq1_const p l a).2 c hc x hx c.headI hhd

theorem chunkEq_chain1 [DecidableEq β] [Inhabited α] (p : α → β) :
    ∀ (l : List α) (a : α),
      List.Chain' (fun c c' => p c.headI ≠ p c'.headI)
        ((chunkBy1 (fun u v => decide (p u = p v)) a l).1 ::
          (chunkBy1 (fun u v => decide (p u = p v)) a l).2)
  | [], a => List.chain'_singleton _
  | b :: l, a => by
    have ih := chunkEq_chain1 p l b
    obtain ⟨t, ht⟩ := chunkBy1_fst_cons (fun u v => decide (p u = p v)) l b
    rcases Or.symm (Bool.eq_false_or_eq_true (decide (p a = p b))) with h | h
    · have hab : p a ≠ p b := of_decide_eq_false h
      rw [chunkBy1_cons_of_false h]
      refine List.chain'_cons.2 ⟨?_, ih⟩
      rw [ht]
      simpa using hab
    · have hab : p a = p b := of_decide_eq_true h
      rw [chunkBy1_cons_of_true h]
      rw [ht] at ih ⊢
      cases hsnd :
          (chunkBy1 (fun u v => decide (p u = p v)) b l).2 with
      | nil => exact List.chain'_singleton _
      | cons c cs =>
        rw [hsnd] at ih
        refine List.chain'_cons.2 ⟨?_, (List.chain'_cons.1 ih).2⟩
        have := (List.chain'_cons.1 ih).1
        simpa [hab] using this

theorem chunkEq_chain_headI [DecidableEq β] [Inhabited α] (p : α → β)
    (l : List α) :
    List.Chain' (fun c c' => p c.headI ≠ p c'.headI) (chunkEq p l) := by
  cases l with
  | nil => simp [chunkEq, chunkBy]
  | cons a l => exact chunkEq_chain1 p l a

/-! Stability of insertion sort: sorting by `r` a list whose original
order satisfies `q` yields a list in which strictly `r`-smaller elements
come first and `r`-ties keep their original relative `q`-order. This is
the pandas guarantee for a stable multi-column sort. -/


theorem pairwise_orderedInsert_stable {r q : α → α → Prop} [DecidableRel r]
    (htr : Transitive r) (hto : Total r) (a : α) :
    ∀ s : List α, List.Pairwise (stableRel r q) s → (∀ x ∈ s, q a x) →
      List.Pairwise (stableRel r q) (List.orderedInsert r a s)
  | [], _, _ => List.pairwise_singleton _ _
  | b :: s, hs, hq => by
    obtain ⟨hb, hs'⟩ := List.pairwise_cons.1 hs
    by_cases hab : r a b
    · simp only [List.orderedInsert, if_pos hab]
      refine List.pairwise_cons.2 ⟨?_, hs⟩
      intro y hy
      rcases List.mem_cons.1 hy with rfl | hy
      · by_cases hba : r y a
        · exact Or.inr ⟨hab, hba, hq y (List.mem_cons_self _ _)⟩
        · exact Or.inl ⟨hab, hba⟩
      · rcases hb y hy with ⟨hby, hyb⟩ | ⟨hby, _, _⟩
        · refine Or.inl ⟨htr hab hby, fun hya => hyb (htr hya hab)⟩
        · by_cases hya : r y a
          · exact Or.inr ⟨htr hab hby, hya, hq y (List.mem_cons_of_mem _ hy)⟩
          · exact Or.inl ⟨htr hab hby, hya⟩
    · have step := pairwise_orderedInsert_stable htr hto a s hs'
        (fun x hx => hq x (List.mem_cons_of_mem _ hx))
      simp only [List.orderedInsert, if_neg hab]
      refine List.pairwise_cons.2 ⟨?_, step⟩
      intro y hy
      rcases (List.mem_orderedInsert _).1 hy with rfl | hy
      · exact Or.inl ⟨(hto y b).resolve_left hab, hab⟩
      · exact hb y hy

theorem pairwise_insertionSort_stable {r q : α → α → Prop} [DecidableRel r]
    (htr : Transitive r) (hto : Total r) :
    ∀ l : List α, List.Pairwise q l →
      List.Pairwise (stableRel r q) (List.insertionSort r l)
  | [], _ => List.Pairwise.nil
  | a :: l, hl => by
    obtain ⟨ha, hl'⟩ := List.pairwise_cons.1 hl
    simp only [List.insertionSort]
    refine pairwise_orderedInsert_stable htr hto a _
      (pairwise_insertionSort_stable htr hto l hl') ?_
    intro x hx
    exact ha x ((List.perm_insertionSort r l).subset hx)

/-! Facts about `pickMaxRun`: membership, maximality, and — by
stability of the sort — the earliest-start tie-break. -/

theorem pickMaxRun_mem {rs : List Run} {r : Run}
    (h : pickMaxRun rs = some r) : r ∈ rs := by
  unfold pickMaxRun at h
  exact (List.perm_insertionSort daysGe rs).subset (List.mem_of_mem_head? h)

theorem pickMaxRun_max {rs : List Run} {r : Run}
    (h : pickMaxRun rs = some r) : ∀ x ∈ rs, x.days ≤ r.days := by
  intro x hx
  unfold pickMaxRun at h
  have hsorted := List.sorted_insertionSort daysGe rs
  have hx' : x ∈ List.insertionSort daysGe rs :=
    (List.perm_insertionSort daysGe rs).mem_iff.2 hx
  cases hsort : List.insertionSort daysGe rs with
  | nil => rw [hsort] at h; exact absurd h (by simp)
  | cons y t =>
    rw [hsort] at h hx' hsorted
    have hry : y = r := by simpa using h
    subst hry
    rcases List.mem_cons.1 hx' with rfl | hx'
    · exact le_refl _
    · exact List.rel_of_sorted_cons hsorted x hx'

theorem pickMaxRun_earliest {rs : List Run} {r : Run}
    (hp : List.Pairwise (fun a b => a.start_dt < b.start_dt) rs)
    (h : pickMaxRun rs = some r) :
    ∀ x ∈ rs, x.days = r.days → r.start_dt ≤ x.start_dt := by
  intro x hx hdays
  have htr : Transitive daysGe := fun _ _ _ hxy hyz => le_trans hyz hxy
  have hto : Total daysGe := fun a b => le_total b.days a.days
  have hstab :
      List.Pairwise (stableRel daysGe (fun a b => a.start_dt < b.start_dt))
        (List.insertionSort daysGe rs) :=
    pairwise_insertionSort_stable htr hto rs hp
  unfold pickMaxRun at h
  have hx' : x ∈ List.insertionSort daysGe rs :=
    (List.perm_insertionSort daysGe rs).mem_iff.2 hx
  cases hsort : List.insertionSort daysGe rs with
  | nil => rw [hsort] at h; exact absurd h (by simp)
  | cons y t =>
    rw [hsort] at h hx' hstab
    have hry : y = r := by simpa using h
    subst hry
    rcases List.mem_cons.1 hx' with rfl | hx'
    · exact le_refl _
    · rcases (List.pairwise_cons.1 hstab).1 x hx' with ⟨_, hnot⟩ | ⟨_, _, hlt⟩
      · exact absurd (le_of_eq hdays.symm) hnot
      · exact le_of_lt hlt

/-! Helpers to strip the `enum` index off the run construction. -/

theorem enumFrom_map_snd (F : α → γ) :
    ∀ (n : ℕ) (l : List α),
      (List.enumFrom n l).map (fun p => F p.2) = l.map F
  | _, [] => rfl
  | n, a :: l => by
    simp only [List.enumFrom, List.map_cons]
    rw [enumFrom_map_snd F (n + 1) l]

theorem enumFrom_filter_map (q : α → Bool) (F : α → γ) :
    ∀ (n : ℕ) (l : List α),
      ((List.enumFrom n l).filter (fun p => q p.2)).map (fun p => F p.2) =
        (l.filter q).map F
  | _, [] => rfl
  | n, a :: l => by
    rcases Or.symm (Bool.eq_false_or_eq_true (q a)) with h | h
    · simp only [List.enumFrom, List.filter_cons, h]
      simpa using enumFrom_filter_map q F (n + 1) l
    · simp only [List.enumFrom, List.filter_cons, h]
      simp only [if_pos trivial, List.map_cons]
      rw [enumFrom_filter_map q F (n + 1) l]

/-! The run table of one group, re-read at the chunk level. -/

theorem runsOfGroup_map_days (g : List FlaggedRow) :
    (runsOfGroup g).map (fun r => r.days) =
      (chunkEq flagOf g).map List.length := by
  unfold runsOfGroup List.enum
  rw [List.map_map]
  exact enumFrom_map_snd List.length 0 (chunkEq flagOf g)

theorem runsOfGroup_map_flag (g : List FlaggedRow) :
    (runsOfGroup g).map (fun r => r.is_full_oos) =
      (chunkEq flagOf g).map (fun c => c.headI.is_full_oos) := by
  unfold runsOfGroup List.enum
  rw [List.map_map]
  exact enumFrom_map_snd (fun c => c.headI.is_full_oos) 0 (chunkEq flagOf g)

theorem chunkEq_flatten [DecidableEq β] (p : α → β) (l : List α) :
    (chunkEq p l).flatten = l :=
  chunkBy_flatten _ l

theorem sum_days_runsOfGroup (g : List FlaggedRow) :
    ((runsOfGroup g).map (fun r => r.days)).sum = g.length := by
  rw [runsOfGroup_map_days]
  have h := List.length_flatten (chunkEq flagOf g)
  rw [chunkEq_flatten] at h
  exact h.symm

/-! Counting `is_full_oos` rows chunk by chunk (for the
`total_full_oos_days` bookkeeping). -/

theorem filter_flatten_length [Inhabited α] (q : α → Bool) :
    ∀ L : List (List α), (∀ c ∈ L, ∀ x ∈ c, q x = q c.headI) →
      (L.flatten.filter q).length =
        ((L.filter (fun c => q c.headI)).map List.length).sum
  | [], _ => rfl
  | c :: L, hconst => by
    have ihL := filter_flatten_length q L
      (fun c' hc' => hconst c' (List.mem_cons_of_mem _ hc'))
    rcases Or.symm (Bool.eq_false_or_eq_true (q c.headI)) with h | h
    · have hc : c.filter q = [] :=
        List.filter_eq_nil_iff.2
          (fun x hx => by
            rw [hconst c (List.mem_cons_self _ _) x hx, h]
            simp)
      simp only [List.flatten_cons, List.filter_append, List.filter_cons, h,
        List.length_append, hc]
      simpa using ihL
    · have hc : c.filter q = c :=
        List.filter_eq_self.2
          (fun x hx => by rw [hconst c (List.mem_cons_self _ _) x hx, h])
      simp only [List.flatten_cons, List.filter_append, List.filter_cons, h,
        List.length_append, hc]
      simp only [if_pos trivial, List.map_cons, List.sum_cons]
      rw [ihL]

/-! The chunking only looks at the projected values: chunking a list and
projecting chunk-wise is the same as chunking the projected list. Hence
run boundaries, lengths and flags depend only on the flag sequence —
never on the dates (the "record sequence, not calendar continuity"
policy). -/

theorem chunkBy1_map (φ : α → γ) (f : γ → γ → Bool) :
    ∀ (l : List α) (a : α),
      (chunkBy1 (fun u v => f (φ u) (φ v)) a l).1.map φ =
          (chunkBy1 f (φ a) (l.map φ)).1 ∧
        (chunkBy1 (fun u v => f (φ u) (φ v)) a l).2.map (List.map φ) =
          (chunkBy1 f (φ a) (l.map φ)).2
  | [], _ => ⟨rfl, rfl⟩
  | b :: l, a => by
    have ih := chunkBy1_map φ f l b
    rcases Or.symm (Bool.eq_false_or_eq_true (f (φ a) (φ b))) with h | h
    · rw [@chunkBy1_cons_of_false α (fun u v => f (φ u) (φ v)) a b l h]
      simp only [List.map_cons]
      rw [chunkBy1_cons_of_false h]
      exact ⟨rfl, by simp [ih.1, ih.2]⟩
    · rw [@chunkBy1_cons_of_true α (fun u v => f (φ u) (φ v)) a b l h]
      simp only [List.map_cons]
      rw [chunkBy1_cons_of_true h]
      exact ⟨by simp [ih.1], ih.2⟩

theorem chunkBy_map (φ : α → γ) (f : γ → γ → Bool) :
    ∀ l : List α,
      (chunkBy (fun u v => f (φ u) (φ v)) l).map (List.map φ) =
        chunkBy f (l.map φ)
  | [] => rfl
  | a :: l => by
    have h := chunkBy1_map φ f l a
    simp only [chunkBy, List.map_cons]
    rw [h.1, h.2]

theorem chunkEq_flag_map (g : List FlaggedRow) :
    (chunkEq flagOf g).map (List.map flagOf) =
      chunkEq (fun b : Bool => b) (g.map flagOf) :=
  chunkBy_map flagOf (fun u v => decide (u = v)) g

/-- The pair (flag, length) of each run of a group is a function of the
group's flag sequence alone. -/
theorem runsOfGroup_sig (g : List FlaggedRow) :
    (runsOfGroup g).map (fun r => (r.is_full_oos, r.days)) =
      (chunkEq (fun b : Bool => b) (g.map flagOf)).map
        (fun c => (c.headI, c.length)) := by
  have h1 : (runsOfGroup g).map (fun r => (r.is_full_oos, r.days)) =
      (chunkEq flagOf g).map (fun c => (c.headI.is_full_oos, c.length)) := by
    unfold runsOfGroup List.enum
    rw [List.map_map]
    exact enumFrom_map_snd
      (fun c : List FlaggedRow => (c.headI.is_full_oos, c.length)) 0
      (chunkEq flagOf g)
  rw [h1, ← chunkEq_flag_map, List.map_map]
  refine List.map_congr_left ?_
  intro c _
  simp only [Function.comp]
  rw [headI_map flagOf rfl c, List.length_map]
  rfl

/-! Group keys: strict lexicographic comparison of `(store_name,
e_code)` through the sorted order, and the keys reported by the
summarizer. -/



theorem rowLe_groupNe_lt {x y : FlaggedRow} (hle : rowLe x y)
    (hne : groupOf x ≠ groupOf y) : groupLt x y := by
  unfold rowLe rowKey at hle
  rcases (Prod.Lex.le_iff _ _).1 hle with hs | ⟨hs, hin⟩
  · exact (Prod.Lex.lt_iff _ _).2 (Or.inl hs)
  · rcases (Prod.Lex.le_iff _ _).1 hin with he | ⟨he, _⟩
    · exact (Prod.Lex.lt_iff _ _).2 (Or.inr ⟨hs, he⟩)
    · have hg : groupOf x = groupOf y := by
        unfold groupOf
        rw [show x.row.store_name = y.row.store_name from hs,
          show x.row.e_code = y.row.e_code from he]
      exact absurd hg hne

theorem chain'_and {R S : α → α → Prop} :
    ∀ {l : List α}, List.Chain' R l → List.Chain' S l →
      List.Chain' (fun a b => R a b ∧ S a b) l := by
  intro l
  induction l with
  | nil => intro _ _; exact List.chain'_nil
  | cons a l ih =>
    cases l with
    | nil => intro _ _; exact List.chain'_singleton _
    | cons b t =>
      intro hR hS
      rcases List.chain'_cons.1 hR with ⟨hR1, hR2⟩
      rcases List.chain'_cons.1 hS with ⟨hS1, hS2⟩
      exact List.chain'_cons.2 ⟨⟨hR1, hS1⟩, ih hR2 hS2⟩

theorem chain'_imp_mem {P : α → Prop} {R S : α → α → Prop} :
    ∀ {l : List α}, (∀ x ∈ l, P x) →
      (∀ x y, P x → P y → R x y → S x y) →
      List.Chain' R l → List.Chain' S l := by
  intro l
  induction l with
  | nil => intro _ _ _; exact List.chain'_nil
  | cons a l ih =>
    cases l with
    | nil => intro _ _ _; exact List.chain'_singleton _
    | cons b t =>
      intro hP himp hR
      rcases List.chain'_cons.1 hR with ⟨h1, h2⟩
      refine List.chain'_cons.2
        ⟨himp a b (hP a (List.mem_cons_self _ _))
          (hP b (List.mem_cons_of_mem _ (List.mem_cons_self _ _))) h1,
         ih (fun x hx => hP x (List.mem_cons_of_mem _ hx)) himp h2⟩

theorem pairwise_imp_mem {R S : α → α → Prop} :
    ∀ {l : List α}, (∀ x ∈ l, ∀ y ∈ l, R x y → S x y) →
      List.Pairwise R l → List.Pairwise S l := by
  intro l
  induction l with
  | nil => intro _ _; exact List.Pairwise.nil
  | cons a l ih =>
    intro h hp
    rcases List.pairwise_cons.1 hp with ⟨h1, h2⟩
    refine List.pairwise_cons.2 ⟨?_, ?_⟩
    · intro y hy
      exact h a (List.mem_cons_self _ _) y (List.mem_cons_of_mem _ hy)
        (h1 y hy)
    · refine ih ?_ h2
      intro x hx y hy hr
      exact h x (List.mem_cons_of_mem _ hx) y (List.mem_cons_of_mem _ hy) hr

/-- Between any row of an earlier group chunk and any row of a later
group chunk of the sorted frame, the group key strictly increases. -/
theorem groups_pairwise_groupLt (l : List FlaggedRow) :
    List.Pairwise (fun c c' => ∀ x ∈ c, ∀ y ∈ c', groupLt x y)
      (chunkEq groupOf (sortDaily l)) := by
  have hsorted : List.Sorted rowLe (sortDaily l) :=
    List.sorted_insertionSort rowLe l
  have hpw : List.Pairwise rowLe (chunkEq groupOf (sortDaily l)).flatten := by
    rw [chunkEq_flatten]; exact hsorted
  have hcross := (List.pairwise_flatten.1 hpw).2
  have hne : ∀ c ∈ chunkEq groupOf (sortDaily l), c ≠ [] :=
    chunkBy_ne_nil _ _
  have hconst := chunkEq_const groupOf (sortDaily l)
  have hhead := chunkEq_chain_headI groupOf (sortDaily l)
  have hcomb := chain'_and hcross.chain' hhead
  have hchain :
      List.Chain' (fun c c' => groupLt c.headI c'.headI)
        (chunkEq groupOf (sortDaily l)) := by
    refine chain'_imp_mem hne ?_ hcomb
    intro c c' hc hc' h
    exact rowLe_groupNe_lt
      (h.1 c.headI (headI_mem_of_ne_nil hc) c'.headI
        (headI_mem_of_ne_nil hc')) h.2
  haveI : IsTrans (List FlaggedRow) (fun c c' => groupLt c.headI c'.headI) :=
    ⟨fun _ _ _ h1 h2 => lt_trans h1 h2⟩
  have hpair := List.chain'_iff_pairwise.1 hchain
  refine pairwise_imp_mem ?_ hpair
  intro c hc c' hc' h x hx y hy
  have h1 := hconst c hc x hx
  have h2 := hconst c' hc' y hy
  unfold groupLt at *
  rw [h1, h2]
  exact h

/-! Facts about the summarizer. -/

theorem summarizeGroup_eq_some {g : List FlaggedRow} {s : SummaryRow}
    (h : summarizeGroup g = some s) :
    ∃ r : Run,
      pickMaxRun ((runsOfGroup g).filter (fun u => u.is_full_oos)) = some r ∧
        s.store_name = r.store_name ∧ s.e_code = r.e_code ∧
        s.max_full_oos_streak_days = r.days ∧
        s.max_streak_start_dt = r.start_dt ∧
        s.max_streak_end_dt = r.end_dt ∧
        s.total_full_oos_days = (g.filter (fun x => x.is_full_oos)).length := by
  unfold summarizeGroup at h
  cases hpick :
      pickMaxRun ((runsOfGroup g).filter (fun u => u.is_full_oos)) with
  | none => rw [hpick] at h; exact absurd h (by simp)
  | some r =>
    rw [hpick] at h
    injection h with h'
    subst h'
    exact ⟨r, rfl, rfl, rfl, rfl, rfl, rfl, rfl⟩

theorem run_key_mem {g : List FlaggedRow} {r : Run} (hr : r ∈ runsOfGroup g) :
    ∃ x ∈ g, r.store_name = x.row.store_name ∧ r.e_code = x.row.e_code ∧
      r.is_full_oos = x.is_full_oos := by
  unfold runsOfGroup at hr
  rcases List.mem_map.1 hr with ⟨p, hp, rfl⟩
  have hc : p.2 ∈ chunkEq flagOf g := by
    unfold List.enum at hp
    exact List.snd_mem_of_mem_enumFrom hp
  have hne : p.2 ≠ [] := chunkBy_ne_nil _ _ _ hc
  exact ⟨p.2.headI, mem_of_mem_chunkBy hc (headI_mem_of_ne_nil hne),
    rfl, rfl, rfl⟩

theorem pairwise_filterMap_of (F : β → Option γ) {R : β → β → Prop}
    {S : γ → γ → Prop}
    (hRS : ∀ a b x y, R a b → F a = some x → F b = some y → S x y) :
    ∀ {L : List β}, List.Pairwise R L → List.Pairwise S (L.filterMap F) := by
  intro L
  induction L with
  | nil => intro _; simp
  | cons a L ih =>
    intro hp
    rcases List.pairwise_cons.1 hp with ⟨h1, h2⟩
    cases hFa : F a with
    | none => rw [List.filterMap_cons_none hFa]; exact ih h2
    | some x =>
      rw [List.filterMap_cons_some hFa]
      refine List.pairwise_cons.2 ⟨?_, ih h2⟩
      intro y hy
      rcases List.mem_filterMap.1 hy with ⟨b, hb, hFb⟩
      exact hRS a b x y (h1 b hb) hFa hFb

/-- The summary rows of the pipeline appear in strictly increasing group
key order (the stable global sort keeps groups in ascending key order,
and `head(1)` per group preserves that order). -/
theorem summary_pairwise_keyLt (l : List FlaggedRow) :
    List.Pairwise (fun s s' => summaryKey s < summaryKey s')
      ((chunkEq groupOf (sortDaily l)).filterMap summarizeGroup) := by
  refine pairwise_filterMap_of summarizeGroup ?_ (groups_pairwise_groupLt l)
  intro c c' s s' hcc hs hs'
  obtain ⟨r, hr, hsn, hec, _⟩ := summarizeGroup_eq_some hs
  have hrmem := (List.mem_filter.1 (pickMaxRun_mem hr)).1
  obtain ⟨x, hx, hxs, hxe, _⟩ := run_key_mem hrmem
  obtain ⟨r', hr', hsn', hec', _⟩ := summarizeGroup_eq_some hs'
  have hrmem' := (List.mem_filter.1 (pickMaxRun_mem hr')).1
  obtain ⟨y, hy, hys, hye, _⟩ := run_key_mem hrmem'
  have hlt := hcc x hx y hy
  unfold groupLt groupOf at hlt
  unfold summaryKey
  rw [hsn, hec, hxs, hxe, hsn', hec', hys, hye]
  exact hlt

/-! Determinism of the internal sort on inputs with pairwise-distinct
`(store_name, e_code, dt)` keys. -/


theorem rowKey_addFlag_inj {th : ℚ} {a b : RawRow}
    (h : rowKey (addFlag th a) = rowKey (addFlag th b)) :
    rawKey a = rawKey b := by
  unfold rowKey addFlag at h
  have h1 :
      (a.store_name, toLex (a.e_code, a.dt)) =
        (b.store_name, toLex (b.e_code, b.dt)) := toLex.injective h
  have hs : a.store_name = b.store_name := congrArg Prod.fst h1
  have h2 : toLex (a.e_code, a.dt) = toLex (b.e_code, b.dt) :=
    congrArg Prod.snd h1
  have h3 : (a.e_code, a.dt) = (b.e_code, b.dt) := toLex.injective h2
  have he : a.e_code = b.e_code := congrArg Prod.fst h3
  have hd : a.dt = b.dt := congrArg Prod.snd h3
  unfold rawKey
  rw [hs, he, hd]

theorem sortDaily_eq_of_perm {l₁ l₂ : List FlaggedRow} (hperm : l₁.Perm l₂)
    (hnd : List.Pairwise (fun a b => rowKey a ≠ rowKey b) l₂) :
    sortDaily l₁ = sortDaily l₂ := by
  have hp1 : (sortDaily l₁).Perm (sortDaily l₂) :=
    (List.perm_insertionSort rowLe l₁).trans
      (hperm.trans (List.perm_insertionSort rowLe l₂).symm)
  have hs1 : List.Sorted rowLe (sortDaily l₁) :=
    List.sorted_insertionSort rowLe l₁
  have hs2 : List.Sorted rowLe (sortDaily l₂) :=
    List.sorted_insertionSort rowLe l₂
  have hsym : ∀ {x y : FlaggedRow},
      rowKey x ≠ rowKey y → rowKey y ≠ rowKey x :=
    fun h e => h e.symm
  have hnd1 :
      List.Pairwise (fun a b => rowKey a ≠ rowKey b) (sortDaily l₁) :=
    (((List.perm_insertionSort rowLe l₁).trans hperm).pairwise_iff
      hsym).2 hnd
  have hnd2 :
      List.Pairwise (fun a b => rowKey a ≠ rowKey b) (sortDaily l₂) :=
    ((List.perm_insertionSort rowLe l₂).pairwise_iff hsym).2 hnd
  have hstrict1 : List.Sorted rowLt (sortDaily l₁) :=
    (hs1.and hnd1).imp (fun h => lt_of_le_of_ne h.1 h.2)
  have hstrict2 : List.Sorted rowLt (sortDaily l₂) :=
    (hs2.and hnd2).imp (fun h => lt_of_le_of_ne h.1 h.2)
  exact List.eq_of_perm_of_sorted hp1 hstrict1 hstrict2

/-! Heap bookkeeping for the frame condition. -/

theorem set_append_add (y : γ) :
    ∀ (l l' : List γ) (i : ℕ),
      (l ++ l').set (l.length + i) y = l ++ l'.set i y
  | [], _, _ => by simp
  | a :: l, l', i => by
    have : (a :: l).length + i = (l.length + i) + 1 := by
      simp [List.length_cons]; omega
    rw [this]
    simp only [List.cons_append, List.set, List.append_eq]
    rw [set_append_add y l l' i]

/-- The heap after `calcHeap`, in normal form: the caller's heap is
extended by four fresh cells and nothing else changes. -/
theorem calcHeap_eq (heap : List PyVal) (dfRef : ℕ) (th : ℚ) :
    calcHeap heap dfRef th =
      (heap ++
        [PyVal.tbl ((getRaw (heap.getD dfRef default)).map (addFlag th)),
         PyVal.tbl (calc_full_oos_streaks
            (getRaw (heap.getD dfRef default)) th).1,
         PyVal.runsT (calc_full_oos_streaks
            (getRaw (heap.getD dfRef default)) th).2.1,
         PyVal.sumT (calc_full_oos_streaks
            (getRaw (heap.getD dfRef default)) th).2.2],
       heap.length + 1, heap.length + 2, heap.length + 3) := by
  unfold calcHeap calc_full_oos_streaks
  have e1 : (heap ++ [PyVal.raw (getRaw (heap.getD dfRef default))]).set
      heap.length
      (PyVal.tbl ((getRaw (heap.getD dfRef default)).map (addFlag th))) =
      heap ++ [PyVal.tbl
        ((getRaw (heap.getD dfRef default)).map (addFlag th))] := by
    have h0 := set_append_add
      (PyVal.tbl ((getRaw (heap.getD dfRef default)).map (addFlag th)))
      heap [PyVal.raw (getRaw (heap.getD dfRef default))] 0
    simp only [Nat.add_zero, List.set] at h0
    exact h0
  simp only [e1, List.length_append, List.length_singleton,
    List.append_assoc, List.singleton_append]
  have e2 := set_append_add
    (PyVal.tbl ((chunkEq groupOf (sortDaily
      ((getRaw (heap.getD dfRef default)).map (addFlag th)))).map
        assignRunIds).flatten)
    heap
    [PyVal.tbl ((getRaw (heap.getD dfRef default)).map (addFlag th)),
     PyVal.tbl (sortDaily
       ((getRaw (heap.getD dfRef default)).map (addFlag th)))] 1
  simp only [List.length_cons, List.length_nil] at e2 ⊢
  rw [e2]
  simp [List.length_append]

/-! The three-key order of the ranked view, and its derivation from
stability of the metric sort over the key-ordered summary. -/


theorem stableRel_metric_imp {s s' : SummaryRow}
    (h : stableRel metricGe (fun u v => summaryKey u < summaryKey v) s s') :
    topOrder s s' := by
  unfold topOrder
  rcases h with ⟨h1, h2⟩ | ⟨h1, h2, h3⟩
  · unfold metricGe at h1 h2
    push_neg at h2
    rcases h1 with hm | ⟨he, _⟩
    · exact Or.inl hm
    · refine Or.inr ⟨he, Or.inl ?_⟩
      omega
  · unfold metricGe at h1 h2
    have hmax :
        s.max_full_oos_streak_days = s'.max_full_oos_streak_days := by
      omega
    have htot : s.total_full_oos_days = s'.total_full_oos_days := by
      omega
    exact Or.inr ⟨hmax, Or.inr ⟨htot, h3⟩⟩

/-! The flag column of the output daily table is computed by the
classifier from the row's own rate. -/

theorem mem_assignRunIds {g : List FlaggedRow} {x : FlaggedRow}
    (hx : x ∈ assignRunIds g) :
    ∃ y ∈ g, x.row = y.row ∧ x.is_full_oos = y.is_full_oos := by
  unfold assignRunIds at hx
  rcases List.mem_flatten.1 hx with ⟨c, hc, hxc⟩
  rcases List.mem_map.1 hc with ⟨p, hp, rfl⟩
  rcases List.mem_map.1 hxc with ⟨y, hy, rfl⟩
  have hchunk : p.2 ∈ chunkEq flagOf g := by
    unfold List.enum at hp
    exact List.snd_mem_of_mem_enumFrom hp
  exact ⟨y, mem_of_mem_chunkBy hchunk hy, rfl, rfl⟩

theorem calc_flag_mem {df : List RawRow} {th : ℚ} {x : FlaggedRow}
    (hx : x ∈ (calc_full_oos_streaks df th).1) :
    x.is_full_oos = isFullOosFlag x.row.oos_rate th := by
  have hx' : x ∈ ((chunkEq groupOf
      (sortDaily (df.map (addFlag th)))).map assignRunIds).flatten := hx
  rcases List.mem_flatten.1 hx' with ⟨gl, hgl, hxg⟩
  rcases List.mem_map.1 hgl with ⟨g, hg, rfl⟩
  obtain ⟨y, hy, hrow, hflag⟩ := mem_assignRunIds hxg
  have hy1 : y ∈ sortDaily (df.map (addFlag th)) :=
    mem_of_mem_chunkBy hg hy
  have hy2 : y ∈ df.map (addFlag th) :=
    (List.perm_insertionSort rowLe _).subset hy1
  rcases List.mem_map.1 hy2 with ⟨raw, _, rfl⟩
  rw [hflag, hrow]
  rfl

/-! Enumerated chains, for transporting run alternation from chunks to
the run table. -/

theorem chain'_enumFrom {R : α → α → Prop} :
    ∀ (l : List α), List.Chain' R l → ∀ n : ℕ,
      List.Chain' (fun p p' : ℕ × α => R p.2 p'.2) (List.enumFrom n l)
  | [], _, _ => List.chain'_nil
  | [_], _, _ => List.chain'_singleton _
  | a :: b :: t, h, n => by
    rcases List.chain'_cons.1 h with ⟨h1, h2⟩
    have ih := chain'_enumFrom (b :: t) h2 (n + 1)
    simp only [List.enumFrom] at ih ⊢
    exact List.chain'_cons.2 ⟨h1, ih⟩



/-! Derived facts used directly by the claim theorems. -/

theorem calc_runs_days_sum (df : List RawRow) (th : ℚ) :
    (((calc_full_oos_streaks df th).2.1).map (fun r => r.days)).sum =
      df.length := by
  have h0 : (calc_full_oos_streaks df th).2.1 =
      ((chunkEq groupOf (sortDaily (df.map (addFlag th)))).map
        runsOfGroup).flatten := rfl
  rw [h0, List.map_flatten, List.sum_flatten, List.map_map, List.map_map]
  have h1 : ∀ g ∈ chunkEq groupOf (sortDaily (df.map (addFlag th))),
      ((List.sum ∘ List.map fun r : Run => r.days) ∘ runsOfGroup) g =
        List.length g := by
    intro g _
    exact sum_days_runsOfGroup g
  rw [List.map_congr_left h1]
  have h2 := List.length_flatten
    (chunkEq groupOf (sortDaily (df.map (addFlag th))))
  rw [← h2, chunkEq_flatten]
  have h3 := (List.perm_insertionSort rowLe (df.map (addFlag th))).length_eq
  rw [sortDaily] at *
  rw [h3, List.length_map]

theorem summary_run_mem {df : List RawRow} {th : ℚ} {s : SummaryRow}
    (hs : s ∈ (calc_full_oos_streaks df th).2.2) :
    ∃ r ∈ (calc_full_oos_streaks df th).2.1,
      r.is_full_oos = true ∧ r.store_name = s.store_name ∧
        r.e_code = s.e_code ∧ r.days = s.max_full_oos_streak_days ∧
        r.start_dt = s.max_streak_start_dt ∧
        r.end_dt = s.max_streak_end_dt := by
  have hs' : s ∈ (chunkEq groupOf
      (sortDaily (df.map (addFlag th)))).filterMap summarizeGroup := hs
  rcases List.mem_filterMap.1 hs' with ⟨g, hg, hsum⟩
  obtain ⟨r, hpick, hsn, hec, hdays, hstart, hend, _⟩ :=
    summarizeGroup_eq_some hsum
  have hrmem := List.mem_filter.1 (pickMaxRun_mem hpick)
  refine ⟨r, ?_, by simpa using hrmem.2, hsn.symm, hec.symm, hdays.symm,
    hstart.symm, hend.symm⟩
  show r ∈ ((chunkEq groupOf
      (sortDaily (df.map (addFlag th)))).map runsOfGroup).flatten
  exact List.mem_flatten.2
    ⟨runsOfGroup g, List.mem_map_of_mem _ hg, hrmem.1⟩

theorem runs_filter_days (g : List FlaggedRow) :
    ((runsOfGroup g).filter (fun r => r.is_full_oos)).map
        (fun r => r.days) =
      ((chunkEq flagOf g).filter (fun c => c.headI.is_full_oos)).map
        List.length := by
  unfold runsOfGroup List.enum
  rw [List.filter_map, List.map_map]
  exact enumFrom_filter_map
    (fun c : List FlaggedRow => c.headI.is_full_oos) List.length 0
    (chunkEq flagOf g)

/-- C1 (counterexample): on an input whose single group contains the
same date twice — an ordering violation in the specification's sense —
`calc_full_oos_streaks` does not fail at all: it produces a run table
from the malformed sequence (one flag-true run counting both duplicate
records), refuting "fails with a fatal OrderingError for that group
rather than producing runs". -/
theorem c1_counterexample :
    (calc_full_oos_streaks dupInput thr).2.1 =
      [⟨[83], [80], 1, true, 1, 1, 2⟩] := by decide

/-- C1 (amended): `calc_full_oos_streaks` performs no ordering
validation and never raises. It sorts the rows itself and segments
whatever sequence results, so every input row — including duplicated or
out-of-order dates — lands in exactly one run (the run-table `days`
column sums to the full input row count), and duplicate-date records
are silently retained and counted, as the concrete duplicate input
shows. -/
theorem c1_segmenter_never_raises :
    (∀ (df : List RawRow) (th : ℚ),
        (((calc_full_oos_streaks df th).2.1).map (fun r => r.days)).sum =
          df.length) ∧
      (calc_full_oos_streaks dupInput thr).2.1 =
        [⟨[83], [80], 1, true, 1, 1, 2⟩] ∧
      (calc_full_oos_streaks dupInput thr).2.2 =
        [⟨[83], [80], 2, 1, 1, 2⟩] :=
  ⟨calc_runs_days_sum, by decide, by decide⟩

/-- C2 (counterexample): a group with one daily record whose rate 1/2
is below the threshold (so the group has no flag-true run) is dropped
from the summary entirely — the summary is empty although the flagged
daily table is not — refuting "the summary output still contains a row
for that group with zero streak". -/
theorem c2_counterexample :
    allFalseInput ≠ [] ∧
      (calc_full_oos_streaks allFalseInput thr).1 ≠ [] ∧
      (calc_full_oos_streaks allFalseInput thr).2.2 = [] := by
  refine ⟨by decide, by decide, by decide⟩

/-- C2 (amended): every row of the summary table belongs to a group
with at least one flag-true run — the summary is built from
`full_runs = runs[runs["is_full_oos"]]` only, so a group none of whose
runs is flag-true contributes no summary row (it is dropped, as the
counterexample shows), rather than appearing with zeroes. -/
theorem c2_summary_needs_true_run :
    ∀ (df : List RawRow) (th : ℚ) (s : SummaryRow),
      s ∈ (calc_full_oos_streaks df th).2.2 →
      ∃ r ∈ (calc_full_oos_streaks df th).2.1,
        r.is_full_oos = true ∧ r.store_name = s.store_name ∧
          r.e_code = s.e_code ∧ r.days = s.max_full_oos_streak_days ∧
          r.start_dt = s.max_streak_start_dt ∧
          r.end_dt = s.max_streak_end_dt :=
  fun _ _ _ hs => summary_run_mem hs

/-- C2 (witness): the amended theorem applied to the six-day example
group. -/
theorem c2_summary_needs_true_run_witness :
    ∃ r ∈ (calc_full_oos_streaks ex7Input thr).2.1,
      r.is_full_oos = true ∧
        r.store_name = ([83] : Str) ∧ r.e_code = ([80] : Str) ∧
        r.days = 3 ∧ r.start_dt = 4 ∧ r.end_dt = 6 :=
  c2_summary_needs_true_run ex7Input thr ⟨[83], [80], 3, 4, 6, 5⟩
    (by decide)

/-- C3: the ranked top-N view of the summary table is ordered by
`max_full_oos_streak_days` descending, then `total_full_oos_days`
descending, and on full metric ties by group key in ascending lexical
order — a fully deterministic sequence. (The tertiary order is not a
sort key in the source; it arises because the stable metric sort
preserves the summary's ascending group-key order on ties.) -/
theorem c3_topN_deterministic_order :
    ∀ (df : List RawRow) (th : ℚ) (n : ℕ),
      List.Pairwise topOrder (topN n (calc_full_oos_streaks df th).2.2) := by
  intro df th n
  have hkey := summary_pairwise_keyLt (df.map (addFlag th))
  have htr : Transitive metricGe :=
    fun a b c h1 h2 => IsTrans.trans a b c h1 h2
  have hto : Total metricGe := fun a b => IsTotal.total a b
  have hstab := pairwise_insertionSort_stable htr hto _ hkey
  have himp := hstab.imp (fun h => stableRel_metric_imp h)
  show List.Pairwise topOrder
    ((List.insertionSort metricGe
      ((chunkEq groupOf (sortDaily (df.map (addFlag th)))).filterMap
        summarizeGroup)).take n)
  exact List.Pairwise.sublist (List.take_sublist n _) himp

/-- C4: when a group has several flag-true runs of equal maximal
length, the summarizer's selection (`pickMaxRun`, the head of the
stable days-descending sort, i.e. `sort_values` + `head(1)` in the
source) picks a maximal run and, provided the runs are listed in
chronological order (strictly increasing `start_dt`), the one with the
earliest start among the maximal ones; the summary row reports exactly
that run's length and date bounds. -/
theorem c4_max_streak_earliest_start :
    (∀ (rs : List Run) (r : Run),
        List.Pairwise (fun a b => a.start_dt < b.start_dt) rs →
        pickMaxRun rs = some r →
        r ∈ rs ∧ (∀ x ∈ rs, x.days ≤ r.days) ∧
          (∀ x ∈ rs, x.days = r.days → r.start_dt ≤ x.start_dt)) ∧
      ∀ (g : List FlaggedRow) (s : SummaryRow), summarizeGroup g = some s →
        ∃ r, pickMaxRun
            ((runsOfGroup g).filter (fun u => u.is_full_oos)) = some r ∧
          s.max_full_oos_streak_days = r.days ∧
          s.max_streak_start_dt = r.start_dt ∧
          s.max_streak_end_dt = r.end_dt := by
  constructor
  · intro rs r hp h
    exact ⟨pickMaxRun_mem h, pickMaxRun_max h, pickMaxRun_earliest hp h⟩
  · intro g s hs
    obtain ⟨r, hpick, _, _, hdays, hstart, hend, _⟩ :=
      summarizeGroup_eq_some hs
    exact ⟨r, hpick, hdays, hstart, hend⟩

/-- C4 (witness): two flag-true runs of equal length 3 starting on days
1 and 5; the selection returns the run starting on day 1, which is
maximal and earliest. -/
theorem c4_max_streak_earliest_start_witness :
    pickMaxRun [runA, runB] = some runA ∧
      runA ∈ [runA, runB] ∧ (∀ x ∈ [runA, runB], x.days ≤ runA.days) ∧
        ∀ x ∈ [runA, runB], x.days = runA.days →
          runA.start_dt ≤ x.start_dt :=
  ⟨by decide,
    c4_max_streak_earliest_start.1 [runA, runB] runA (by decide)
      (by decide)⟩



/-- C5: run adjacency is keyed purely on record sequence — the flag and
length of every run are a function of the group's flag sequence alone,
never of the dates (first conjunct); and on the documented gap example,
dates [1, 2, 4, 5] (day 3 absent) all flagged true, the segmenter
produces exactly one run of length 4 with start date 1 and end date 5
(second conjunct). -/
theorem c5_runs_ignore_calendar_gaps :
    (∀ g h : List FlaggedRow, g.map flagOf = h.map flagOf →
        (runsOfGroup g).map (fun r => (r.is_full_oos, r.days)) =
          (runsOfGroup h).map (fun r => (r.is_full_oos, r.days))) ∧
      (calc_full_oos_streaks gapInput thr).2.1 =
        [⟨[83], [80], 1, true, 1, 5, 4⟩] := by
  constructor
  · intro g h hflags
    rw [runsOfGroup_sig, runsOfGroup_sig, hflags]
  · decide

/-- C5 (witness): two two-record groups with identical flag sequences
but different (non-adjacent) dates produce runs with identical flags
and lengths. -/
theorem c5_runs_ignore_calendar_gaps_witness :
    (runsOfGroup [fr 1 true, fr 2 true]).map
        (fun r => (r.is_full_oos, r.days)) =
      (runsOfGroup [fr 1 true, fr 9 true]).map
        (fun r => (r.is_full_oos, r.days)) :=
  c5_runs_ignore_calendar_gaps.1 [fr 1 true, fr 2 true]
    [fr 1 true, fr 9 true] (by decide)

/-- C6: for every daily aggregate, with a positive threshold the
classifier returns true exactly when the rate is present and at least
the threshold (in particular a null rate — `total_count = 0` — yields
false), and every row of the pipeline's flagged output carries exactly
the classifier's value for its own rate; the classifier is a total
function (it is definitionally `fillna(0) >= threshold`). -/
theorem c6_classifier_threshold :
    ∀ (rate : Option ℚ) (th : ℚ), 0 < th →
      (isFullOosFlag rate th = true ↔ ∃ x, rate = some x ∧ th ≤ x) ∧
        isFullOosFlag none th = false ∧
        ∀ (df : List RawRow), ∀ fr₀ ∈ (calc_full_oos_streaks df th).1,
          fr₀.is_full_oos = isFullOosFlag fr₀.row.oos_rate th := by
  intro rate th hth
  have hnone : isFullOosFlag none th = false := by
    unfold isFullOosFlag
    simp only [Option.getD_none, decide_eq_false_iff_not]
    exact fun h => absurd (lt_of_lt_of_le hth h) (lt_irrefl 0)
  refine ⟨?_, hnone, fun df fr₀ h => calc_flag_mem h⟩
  cases rate with
  | none =>
    rw [hnone]
    simp
  | some x =>
    unfold isFullOosFlag
    simp only [Option.getD_some, decide_eq_true_eq]
    constructor
    · intro h
      exact ⟨x, rfl, h⟩
    · rintro ⟨y, hy, hle⟩
      injection hy with hy'
      subst hy'
      exact hle

/-- C6 (witness): with the default threshold 0.999, rate 0.9991 is
flagged true, rate 0.9989 false, and a null rate false. -/
theorem c6_classifier_threshold_witness :
    isFullOosFlag (some r9991) thr = true ∧
      isFullOosFlag (some r9989) thr = false ∧
      isFullOosFlag none thr = false :=
  ⟨(c6_classifier_threshold (some r9991) thr (by decide)).1.mpr
      ⟨r9991, rfl, by decide⟩,
    Bool.eq_false_iff.mpr (fun hT => by
      rcases (c6_classifier_threshold (some r9989) thr
          (by decide)).1.mp hT with ⟨x, hx, hle⟩
      injection hx with hx'
      subst hx'
      exact absurd hle (by decide)),
    (c6_classifier_threshold none thr (by decide)).2.1⟩

/-- C7: for every group appearing in the summary,
`total_full_oos_days` is the sum of `length` (`days`) over all of that
group's flag-true runs (first conjunct; the source computes it as the
per-group count of flag-true daily rows, which coincides because the
runs partition the group); and on flags [T, T, F, T, T, T] over six
consecutive dates the runs are (T,2), (F,1), (T,3) with
`max_full_oos_streak_days` 3 and `total_full_oos_days` 5. -/
theorem c7_total_is_sum_of_true_runs :
    (∀ (g : List FlaggedRow) (s : SummaryRow), summarizeGroup g = some s →
        s.total_full_oos_days =
          (((runsOfGroup g).filter (fun r => r.is_full_oos)).map
            (fun r => r.days)).sum) ∧
      (calc_full_oos_streaks ex7Input thr).2.1 =
        [⟨[83], [80], 1, true, 1, 2, 2⟩, ⟨[83], [80], 2, false, 3, 3, 1⟩,
          ⟨[83], [80], 3, true, 4, 6, 3⟩] ∧
      (calc_full_oos_streaks ex7Input thr).2.2 =
        [⟨[83], [80], 3, 4, 6, 5⟩] := by
  refine ⟨?_, by decide, by decide⟩
  intro g s hs
  obtain ⟨_, _, _, _, _, _, _, htotal⟩ := summarizeGroup_eq_some hs
  rw [htotal, runs_filter_days]
  have hconst : ∀ c ∈ chunkEq flagOf g, ∀ x ∈ c,
      (fun x : FlaggedRow => x.is_full_oos) x =
        (fun x : FlaggedRow => x.is_full_oos) c.headI :=
    chunkEq_const flagOf g
  have h := filter_flatten_length
    (fun x : FlaggedRow => x.is_full_oos) (chunkEq flagOf g) hconst
  rw [chunkEq_flatten] at h
  exact h

/-- C7 (witness): the general total equation applied to the concrete
six-day group. -/
theorem c7_total_is_sum_of_true_runs_witness :
    (⟨[83], [80], 3, 4, 6, 5⟩ : SummaryRow).total_full_oos_days =
      (((runsOfGroup [fr 1 true, fr 2 true, fr 3 false, fr 4 true,
          fr 5 true, fr 6 true]).filter (fun r => r.is_full_oos)).map
        (fun r => r.days)).sum :=
  c7_total_is_sum_of_true_runs.1
    [fr 1 true, fr 2 true, fr 3 false, fr 4 true, fr 5 true, fr 6 true]
    ⟨[83], [80], 3, 4, 6, 5⟩ (by decide)

/-- C8: for every group, the maximal constant-flag chunks fully
partition the group's records (their concatenation is the group, every
chunk is nonempty and carries one constant flag value), consecutive
runs strictly alternate in flag, and the run lengths sum to the
group's record count. -/
theorem c8_runs_partition_alternate :
    ∀ g : List FlaggedRow,
      (chunkEq flagOf g).flatten = g ∧
        (∀ c ∈ chunkEq flagOf g,
          c ≠ [] ∧ ∀ x ∈ c, x.is_full_oos = c.headI.is_full_oos) ∧
        List.Chain' (fun r₁ r₂ => r₁.is_full_oos ≠ r₂.is_full_oos)
          (runsOfGroup g) ∧
        ((runsOfGroup g).map (fun r => r.days)).sum = g.length := by
  intro g
  refine ⟨chunkEq_flatten flagOf g, ?_, ?_, sum_days_runsOfGroup g⟩
  · intro c hc
    exact ⟨chunkBy_ne_nil _ _ c hc, chunkEq_const flagOf g c hc⟩
  · have hch := chunkEq_chain_headI flagOf g
    have hch2 := chain'_enumFrom (chunkEq flagOf g) hch 0
    unfold runsOfGroup List.enum
    rw [List.chain'_map]
    exact hch2

/-- C8 (witness): the partition facts applied to the concrete
three-record group with flags [T, F, T] and to its first chunk. -/
theorem c8_runs_partition_alternate_witness :
    ([fr 1 true] : List FlaggedRow) ≠ [] ∧
      ∀ x ∈ ([fr 1 true] : List FlaggedRow),
        x.is_full_oos = ([fr 1 true] : List FlaggedRow).headI.is_full_oos :=
  (c8_runs_partition_alternate [fr 1 true, fr 2 false, fr 3 true]).2.1
    [fr 1 true] (by decide)

/-- C9: `calc_full_oos_streaks` does not mutate its input. In the heap
model of the function's body (`calcHeap`), every pre-existing heap cell
— in particular the caller's DailyAggregate frame — is unchanged after
the call, the three result references are fresh (past the end of the
caller's heap), and the values they hold are exactly the three outputs
`calc_full_oos_streaks` computes from the caller's table. -/
theorem c9_no_input_mutation :
    ∀ (heap : List PyVal) (dfRef : ℕ) (th : ℚ),
      (calcHeap heap dfRef th).1.take heap.length = heap ∧
        (∀ i, i < heap.length →
          (calcHeap heap dfRef th).1.getD i default = heap.getD i default) ∧
        heap.length < (calcHeap heap dfRef th).2.1 ∧
        heap.length < (calcHeap heap dfRef th).2.2.1 ∧
        heap.length < (calcHeap heap dfRef th).2.2.2 ∧
        (calcHeap heap dfRef th).1.getD (calcHeap heap dfRef th).2.1
            default =
          PyVal.tbl (calc_full_oos_streaks
            (getRaw (heap.getD dfRef default)) th).1 ∧
        (calcHeap heap dfRef th).1.getD (calcHeap heap dfRef th).2.2.1
            default =
          PyVal.runsT (calc_full_oos_streaks
            (getRaw (heap.getD dfRef default)) th).2.1 ∧
        (calcHeap heap dfRef th).1.getD (calcHeap heap dfRef th).2.2.2
            default =
          PyVal.sumT (calc_full_oos_streaks
            (getRaw (heap.getD dfRef default)) th).2.2 := by
  intro heap dfRef th
  rw [calcHeap_eq]
  dsimp only
  refine ⟨List.take_left _ _, ?_, by omega, by omega, by omega, ?_, ?_, ?_⟩
  · intro i hi
    exact List.getD_append _ _ _ _ hi
  · rw [List.getD_append_right _ _ _ _ (by omega)]
    simp
  · rw [List.getD_append_right _ _ _ _ (by omega)]
    simp
  · rw [List.getD_append_right _ _ _ _ (by omega)]
    simp

/-- C9 (witness): the frame condition applied to a one-cell heap
holding the gap-example table: cell 0 is unchanged by the call. -/
theorem c9_no_input_mutation_witness :
    (calcHeap [PyVal.raw gapInput] 0 thr).1.getD 0 default =
      ([PyVal.raw gapInput] : List PyVal).getD 0 default :=
  (c9_no_input_mutation [PyVal.raw gapInput] 0 thr).2.1 0 (by decide)

/-- C10: on inputs with pairwise-distinct `(store_name, e_code, dt)`
keys, `calc_full_oos_streaks` returns identical outputs (flagged daily
table, run table and summary) for every permutation of the input rows —
the function sorts by that key internally, so callers need not pre-sort
or pre-group. -/
theorem c10_input_order_irrelevant :
    ∀ (df df' : List RawRow) (th : ℚ),
      df'.Perm df →
      List.Pairwise (fun a b => rawKey a ≠ rawKey b) df →
      calc_full_oos_streaks df' th = calc_full_oos_streaks df th := by
  intro df df' th hperm hnd
  have hnd2 : List.Pairwise (fun a b : FlaggedRow => rowKey a ≠ rowKey b)
      (df.map (addFlag th)) := by
    rw [List.pairwise_map]
    exact hnd.imp (fun hne h => hne (rowKey_addFlag_inj h))
  have hpermF : (df'.map (addFlag th)).Perm (df.map (addFlag th)) :=
    hperm.map _
  have hsort := sortDaily_eq_of_perm hpermF hnd2
  unfold calc_full_oos_streaks
  rw [hsort]

/-- C10 (witness): the permutation invariance applied to the concrete
two-group input and a permutation of it. -/
theorem c10_input_order_irrelevant_witness :
    calc_full_oos_streaks twoGroupsPerm thr =
      calc_full_oos_streaks twoGroups thr :=
  c10_input_order_irrelevant twoGroups twoGroupsPerm thr (by decide)
    (by decide)

end OOS
